import Mathlib

/-!
Verification of the MissMixed imputation orchestrator
(`missmixed/miss_mixed.py`) against its natural-language specification.

The embedding models pandas/numpy data as lists of rational-valued cells
(`Cell`, with `na` standing for NaN/missing) and IEEE float scores as the
four-way type `FVal` (NaN, minus infinity, plus infinity, finite rational),
so that comparisons with NaN are false exactly as in the source's float
arithmetic.  Tables are stored column-major (`Table := List Col`), matching
the source's column-wise processing.
-/

set_option autoImplicit false

namespace MM

/-- A single data cell: either missing (NaN in the source) or a value. -/
inductive Cell where
  | na : Cell
  | val : ℚ → Cell
deriving DecidableEq, Repr

/-- A column of the data table, top to bottom. -/
abbrev Col := List Cell

/-- A table, stored as its list of columns in positional order. -/
abbrev Table := List Col

/-- Whether a column contains at least one missing entry
(`self.raw_data.iloc[:, col_idx].isnull().any()` in the source). -/
def colHasNull (c : Col) : Bool :=
  c.any (fun x => x = Cell.na)

/-- Number of non-missing entries of a column (`notna().sum()` per column). -/
def nonNullCount (c : Col) : Nat :=
  (c.filter (fun x => x ≠ Cell.na)).length

/-- An IEEE-style float score value: NaN, minus infinity, plus infinity or a
finite rational.  Mirrors the numpy floats the source compares. -/
inductive FVal where
  | nan    : FVal
  | negInf : FVal
  | posInf : FVal
  | val    : ℚ → FVal
deriving DecidableEq, Repr

/-- IEEE strict less-than on float scores: every comparison with NaN is
false; minus infinity is below everything else; plus infinity above. -/
def FVal.lt : FVal → FVal → Bool
  | FVal.nan,    _           => false
  | _,           FVal.nan    => false
  | FVal.negInf, FVal.negInf => false
  | FVal.negInf, _           => true
  | _,           FVal.negInf => false
  | FVal.posInf, _           => false
  | FVal.val _,  FVal.posInf => true
  | FVal.val a,  FVal.val b  => a < b

/-- Multiplication of a float score by an integer (used with the metric
direction ±1): infinities flip sign, multiplication by 0 yields NaN as in
IEEE arithmetic, NaN propagates. -/
def dirMul (d : ℤ) : FVal → FVal
  | FVal.nan    => FVal.nan
  | FVal.negInf => if 0 < d then FVal.negInf else if d < 0 then FVal.posInf else FVal.nan
  | FVal.posInf => if 0 < d then FVal.posInf else if d < 0 then FVal.negInf else FVal.nan
  | FVal.val q  => FVal.val (q * d)

/-- The metric names the constructor accepts (`acceptable_metrics`). -/
def acceptableMetrics : List String := ["r2_accuracy", "mse"]

/-- Optimization direction of a metric
(`self.metric_direction = 1 if metric == 'r2_accuracy' else -1`). -/
def metricDirection (metric : String) : ℤ :=
  if metric = "r2_accuracy" then 1 else -1

/-- Initial score board
(`np.full(self.num_of_columns, -np.inf * self.metric_direction)`). -/
def initBoard (n : Nat) (metric : String) : List FVal :=
  List.replicate n (dirMul (metricDirection metric) FVal.negInf)

/-- The acceptance gate `MissMixed.__can_impute`: accept iff
`stored * direction < candidate * direction`, and on acceptance store the
candidate.  Returns the decision together with the updated board. -/
def canImpute (board : List FVal) (d : ℤ) (col : Nat) (testScore : FVal) :
    Bool × List FVal :=
  let doIt := FVal.lt (dirMul d (board.getD col FVal.nan)) (dirMul d testScore)
  (doIt, if doIt then board.set col testScore else board)

/-- A whole run of acceptance decisions: fold `canImpute` over a list of
(column, candidate score) events starting from the initial board. -/
def runBoard (metric : String) (n : Nat) (events : List (Nat × FVal)) :
    List FVal :=
  events.foldl (fun b e => (canImpute b (metricDirection metric) e.1 e.2).2)
    (initBoard n metric)

/-- Direction-aware "at least as good": equal, or strictly direction-better
under `FVal.lt` after multiplying by the direction. -/
def dirBetterEq (d : ℤ) (a b : FVal) : Bool :=
  a = b || FVal.lt (dirMul d b) (dirMul d a)

/-- The sentinel score seeded for a column with no missing values
(`1 if self.metric_direction else 0`): Python truthiness, so the `else`
branch fires only when the direction integer is zero. -/
def sentinelScore (metric : String) : FVal :=
  if metricDirection metric ≠ 0 then FVal.val 1 else FVal.val 0

/-- Python slice `lst[-k:]`: for `k = 0` this is `lst[0:]`, the whole list;
otherwise the last `k` elements (all of them when `k ≥ length`). -/
def lastSlice (k : Nat) (l : List Nat) : List Nat :=
  if k = 0 then l else l.drop (l.length - k)

/-- `MissMixed.__check_early_stopping`: with early stopping enabled and at
least `iterPerStopping` recorded stage counts, true iff every one of the
most recent `iterPerStopping` counts has ratio at most the tolerance. -/
def checkEarlyStopping (earlyStopping : Bool) (iterPerStopping : Nat)
    (tolerance : ℚ) (numCols : Nat) (history : List Nat) : Bool :=
  if earlyStopping then
    if iterPerStopping ≤ history.length then
      (lastSlice iterPerStopping history).all
        (fun u => decide ((u : ℚ) / (numCols : ℚ) ≤ tolerance))
    else false
  else false

/-- One iteration of the stage loop of `MissMixed.fit_transform`: append
the stage's update count to the history, evaluate `__check_early_stopping`,
and record its result; the accumulator carries (history, stages processed,
check results). -/
def fitStep (earlyStopping : Bool) (iterPerStopping : Nat) (tolerance : ℚ)
    (numCols : Nat) (acc : List Nat × Nat × List Bool) (c : Nat) :
    List Nat × Nat × List Bool :=
  let history := acc.1 ++ [c]
  (history, acc.2.1 + 1,
   acc.2.2 ++ [checkEarlyStopping earlyStopping iterPerStopping tolerance
     numCols history])

/-- The stage loop of `MissMixed.fit_transform`, abstracted over the
per-stage update counts the imputers produce.  The source loop contains no
`break` (a positive check only executes a `print`), so every stage of the
sequence is processed.  Returns the number of stages processed and the
early-stopping check result after each stage. -/
def fitTransformLoop (stageCounts : List Nat) (earlyStopping : Bool)
    (iterPerStopping : Nat) (tolerance : ℚ) (numCols : Nat) :
    Nat × List Bool :=
  (stageCounts.foldl
    (fitStep earlyStopping iterPerStopping tolerance numCols) ([], 0, [])).2

/-- Labels (= original positions) of the columns `__clean_working_data`
drops: those whose non-missing count is at most 1. -/
def dropLabels (t : Table) : List Nat :=
  (List.range t.length).filter (fun i => nonNullCount (t.getD i []) ≤ 1)

/-- Labels of the columns that survive cleaning. -/
def survivorLabels (t : Table) : List Nat :=
  (List.range t.length).filter (fun i => 1 < nonNullCount (t.getD i []))

/-- The working table after cleaning: the surviving columns in order
(`self.working_data.drop(columns=columns_to_be_dropped)`). -/
def cleanTable (t : Table) : Table :=
  (survivorLabels t).map (fun i => t.getD i [])

/-- Python `del lst[i]`: removes the element at position `i`, or fails with
an IndexError when `i` is out of range. -/
def listDelete {α : Type} (l : List α) (i : Nat) : Option (List α) :=
  if i < l.length then some (l.take i ++ l.drop (i + 1)) else none

/-- The flag-update loop of `__clean_working_data`
(`for i in columns_to_be_dropped: del self.categorical_columns[i]`):
sequential in-place deletions at the dropped labels, each deletion applied
to the already-shrunken list.  `none` models the IndexError raised when a
label falls outside the shrunken list. -/
def deleteAtLabels : List Bool → List Nat → Option (List Bool)
  | flags, [] => some flags
  | flags, i :: rest =>
    match listDelete flags i with
    | none => none
    | some f => deleteAtLabels f rest

/-- The flag list a consistent cleaning would produce: the original flag of
each surviving column, in column order. -/
def alignedFlags (t : Table) (flags : List Bool) : List Bool :=
  (survivorLabels t).map (fun i => flags.getD i false)

/-- The value of a cell, when present. -/
def cellVal : Cell → Option ℚ
  | Cell.na => none
  | Cell.val q => some q

/-- Modelled from the spec: the external label encoder (sklearn's
`LabelEncoder`, not part of this repository) builds, from a column's
observed non-missing values, a bijection between those values and the dense
integers `0 .. k-1`; the classes are the sorted distinct observed values. -/
def fitClasses (vs : List ℚ) : List ℚ :=
  vs.dedup.mergeSort (fun a b => a ≤ b)

/-- Modelled from the spec: encoding maps an observed value to its integer
code, its index in the class list. -/
def encodeVal (classes : List ℚ) (v : ℚ) : Nat :=
  classes.indexOf v

/-- Modelled from the spec: inverse-decoding maps an integer code back to
the class value at that index (as done at final result assembly). -/
def decodeVal (classes : List ℚ) (c : Nat) : ℚ :=
  classes.getD c 0

/-- `__process_categorical_data` on one categorical column: fit the encoder
on the non-missing values and replace each non-missing entry by its code;
missing entries stay missing. -/
def encodeColumn (col : Col) : Col :=
  let classes := fitClasses (col.filterMap cellVal)
  col.map (fun c =>
    match c with
    | Cell.na => Cell.na
    | Cell.val v => Cell.val ((encodeVal classes v : ℕ) : ℚ))

/-- `__process_categorical_data` over the table: encode exactly the columns
flagged categorical. -/
def encodeTable (flags : List Bool) (t : Table) : Table :=
  List.zipWith (fun flag col => if flag then encodeColumn col else col) flags t

/-- Mean of the non-missing entries of a column. -/
def colMean (c : Col) : ℚ :=
  (c.filterMap cellVal).sum / (nonNullCount c : ℚ)

/-- `SimpleImputer(strategy='mean')` on one column: replace each missing
entry by the column mean of the non-missing entries. -/
def fillColumn (c : Col) : List ℚ :=
  c.map (fun x =>
    match x with
    | Cell.na => colMean c
    | Cell.val v => v)

/-- The initial fill producing the first ImputedMatrix
(`pd.DataFrame(SimpleImputer(strategy=initial_strategy).fit_transform(...))`,
modelled for the default mean strategy). -/
def initialFill (t : Table) : List (List ℚ) :=
  t.map fillColumn

/-- The processing phases `MissMixed.__init__` runs, in source order. -/
inductive InitPhase where
  | cleanData : InitPhase
  | encodeData : InitPhase
  | initialFillStep : InitPhase
  | metricsCheck : InitPhase
deriving DecidableEq, Repr

/-- `MissMixed.__init__`: clean the working data, encode categorical
columns, build the initial ImputedMatrix, and only then validate the metric
name (`__init_metrics` raises `ValueError` on an unsupported metric).
Returns the trace of completed phases together with the outcome. -/
def missMixedInit (raw : Table) (flags : List Bool) (metric : String) :
    List InitPhase × Except String (List (List ℚ)) :=
  match deleteAtLabels flags (dropLabels raw) with
  | none => ([], Except.error "IndexError during column cleaning")
  | some newFlags =>
    let wt := cleanTable raw
    let filled := initialFill (encodeTable newFlags wt)
    if metric ∈ acceptableMetrics then
      ([InitPhase.cleanData, InitPhase.encodeData, InitPhase.initialFillStep,
        InitPhase.metricsCheck], Except.ok filled)
    else
      ([InitPhase.cleanData, InitPhase.encodeData, InitPhase.initialFillStep],
       Except.error "Invalid metric")

/-- Minimum of a rational column (`df_x[col_name].min()`). -/
def colMinQ (c : List ℚ) : ℚ :=
  c.foldl min (c.headD 0)

/-- Maximum of a rational column (`df_x[col_name].max()`). -/
def colMaxQ (c : List ℚ) : ℚ :=
  c.foldl max (c.headD 0)

/-- The per-column min-max scaling of `__normalize`:
`((x - col_min) / (col_max - col_min)) * 10`. -/
def minMaxScale (c : List ℚ) : List ℚ :=
  let mn := colMinQ c
  let mx := colMaxQ c
  c.map (fun x => ((x - mn) / (mx - mn)) * 10)

/-- `MissMixed.__normalize`: for every feature column the loop tests the
single condition `not self.shared.is_categorical()`.  Modelled from the
spec for the missing `SharedData` helper: the shared scratch context holds
the categorical flag of the column currently being targeted, so the
condition is the target column's flag, the same for every feature column.
When the target is numerical every feature column is scaled; when it is
categorical none is. -/
def normalize (targetIsCategorical : Bool) (cols : List (List ℚ)) :
    List (List ℚ) :=
  cols.map (fun c => if ¬ targetIsCategorical then minMaxScale c else c)

/-- The per-feature-flag normalization the specification describes, for
comparison with `normalize`: each feature column flagged numerical is
min-max scaled, each flagged categorical passes through unscaled. -/
def normalizeSpecWords (featureFlags : List Bool) (cols : List (List ℚ)) :
    List (List ℚ) :=
  List.zipWith (fun flag c => if flag then c else minMaxScale c) featureFlags cols

/-- The train/validation split data `__dataset_preparation` hands to
`__process_each_column`.  Feature rows are lists of rationals. -/
structure TrainData where
  xTrain : List (List ℚ)
  yTrain : List ℚ
  xTest : List (List ℚ)
  yTest : List ℚ

/-- `np.maximum(predictions, 0.0)`: clamp every prediction at zero. -/
def clampPred (ys : List ℚ) : List ℚ :=
  ys.map (fun y => max y 0)

/-- `np.argmax` over float scores: index of the first maximum, scanning
left to right and updating when the current value strictly exceeds the
best so far or when it is NaN and the best so far is not. -/
def argmaxF : List FVal → Nat
  | [] => 0
  | s :: rest =>
    (rest.foldl
      (fun (acc : Nat × FVal × Nat) cur =>
        if FVal.lt acc.2.1 cur || (cur = FVal.nan && acc.2.1 ≠ FVal.nan)
        then (acc.2.2, cur, acc.2.2 + 1)
        else (acc.1, acc.2.1, acc.2.2 + 1))
      (0, s, 1)).1

/-- The outcome of processing one column in one stage. -/
structure ColumnOutcome where
  updated : Bool
  board : List FVal
  written : Option (List ℚ)
deriving DecidableEq, Repr

/-- The trial loop of `__process_each_column`: each trial's (train,
validation) scores, the metric applied to predictions clamped at zero on
both splits (`np.maximum(imputer.predict(...), 0.0)`).  `fitted t` is the
predictor obtained by the trial-`t` fit of the stage's model (fit/predict
being the external estimator's contract). -/
def trialScores (fitted : Nat → List (List ℚ) → List ℚ) (trials : Nat)
    (metric : List ℚ → List ℚ → FVal) (ds : TrainData) : List (FVal × FVal) :=
  (List.range trials).map (fun t =>
    (metric ds.yTrain (clampPred (fitted t ds.xTrain)),
     metric ds.yTest (clampPred (fitted t ds.xTest))))

/-- The trial selected by `np.argmax` over validation score times
direction (`best_index` in the source). -/
def bestTrial (fitted : Nat → List (List ℚ) → List ℚ) (trials : Nat)
    (metric : List ℚ → List ℚ → FVal) (d : ℤ) (ds : TrainData) : Nat :=
  argmaxF ((trialScores fitted trials metric ds).map (fun s => dirMul d s.2))

/-- `MissMixed.__process_each_column` followed by `__apply_best_model`.
When the validation split has at least 2 rows: run the trials, select the
trial with the direction-best validation score; if the gate `__can_impute`
accepts that score, write the selected model's raw (unclamped) predictions
on the to-impute rows.  Otherwise nothing is written. -/
def processEachColumn (fitted : Nat → List (List ℚ) → List ℚ) (trials : Nat)
    (metric : List ℚ → List ℚ → FVal) (d : ℤ) (ds : TrainData)
    (imputeX : List (List ℚ)) (board : List FVal) (colIndex : Nat) :
    ColumnOutcome :=
  if 2 ≤ ds.yTest.length then
    let bestIdx := bestTrial fitted trials metric d ds
    let bestVal := ((trialScores fitted trials metric ds).getD bestIdx
      (FVal.nan, FVal.nan)).2
    let gate := canImpute board d colIndex bestVal
    if gate.1 then
      { updated := true, board := gate.2, written := some (fitted bestIdx imputeX) }
    else
      { updated := false, board := gate.2, written := none }
  else
    { updated := false, board := board, written := none }

/-- The skip guard of `__process_each_imputer` for the column at working
position `colIdx`: skip (and sentinel-seed) iff the RAW table's column at
that positional index has no missing entry
(`not self.raw_data.iloc[:, col_idx].isnull().any()`). -/
def noMissingGuard (raw : Table) (colIdx : Nat) : Bool :=
  !(colHasNull (raw.getD colIdx []))

/-- Row indices of a target column's missing entries: the rows
`__apply_best_model` writes (`impute_dataset['y'].index`). -/
def imputeRowIdxs (col : Col) : List Nat :=
  (List.range col.length).filter (fun i => col.getD i Cell.na = Cell.na)

/-- Writing predicted values into an ImputedMatrix column at the given row
indices (`self.imputed_df.loc[impute_dataset['y'].index, col_index] = ...`). -/
def writeAtRows (col : List ℚ) (idxs : List Nat) (vals : List ℚ) : List ℚ :=
  (List.zip idxs vals).foldl (fun c p => c.set p.1 p.2) col

/-! ## Theorems -/

/-- The stage counter of the fold underlying `fitTransformLoop` advances by
exactly one per stage, whatever the early-stopping checks return. -/
theorem fitStep_foldl_count (es : Bool) (k : Nat) (tol : ℚ) (ncols : Nat) :
    ∀ (l : List Nat) (acc : List Nat × Nat × List Bool),
      (l.foldl (fitStep es k tol ncols) acc).2.1 = acc.2.1 + l.length := by
  intro l
  induction l with
  | nil => intro acc; simp
  | cons c rest ih =>
    intro acc
    simp only [List.foldl_cons, ih, fitStep, List.length_cons]
    omega

/-- C1: the run does not halt when the early-stopping condition holds.  The
loop of `fit_transform` contains no `break`: every imputer of the sequence
is processed no matter what `__check_early_stopping` returns.  In
particular, with early stopping enabled, window 1 and tolerance 1/10 over
2 columns, a first stage updating 0 columns makes the check fire, yet a
second stage is still processed. -/
theorem fit_transform_never_halts :
    (∀ (stageCounts : List Nat) (es : Bool) (k : Nat) (tol : ℚ) (ncols : Nat),
      (fitTransformLoop stageCounts es k tol ncols).1 = stageCounts.length)
    ∧ fitTransformLoop [0, 1] true 1 (1 / 10) 2 = (2, [true, false]) := by
  constructor
  · intro stageCounts es k tol ncols
    unfold fitTransformLoop
    rw [fitStep_foldl_count]
    simp
  · simp only [fitTransformLoop, fitStep, checkEarlyStopping, lastSlice,
      List.foldl]
    norm_num

/-- C2 counterexample: constructing with the invalid metric name "bogus" on
a concrete two-column table (second column categorical) raises the
configuration error only AFTER column cleaning, categorical encoding and
the initial fill have all completed — not before any processing, as the
claim states. -/
theorem metric_error_after_processing_cx :
    (missMixedInit [[Cell.val 1, Cell.val 2, Cell.na], [Cell.val 0, Cell.val 0, Cell.val 1]]
        [false, true] "bogus").1 =
      [InitPhase.cleanData, InitPhase.encodeData, InitPhase.initialFillStep]
    ∧ (missMixedInit [[Cell.val 1, Cell.val 2, Cell.na], [Cell.val 0, Cell.val 0, Cell.val 1]]
        [false, true] "bogus").2 = Except.error "Invalid metric" := by
  constructor
  · rfl
  · rfl

/-- C2 (amended): for every metric string not in the acceptable list, and
whenever the flag-deletion loop of cleaning succeeds, construction raises
the configuration error — but only after column cleaning, categorical
encoding and the initial fill have executed, since `__init_metrics` is the
last step of `__init__`. -/
theorem invalid_metric_error_after_fill (raw : Table) (flags newFlags : List Bool)
    (metric : String) (hm : metric ∉ acceptableMetrics)
    (hclean : deleteAtLabels flags (dropLabels raw) = some newFlags) :
    (missMixedInit raw flags metric).1 =
      [InitPhase.cleanData, InitPhase.encodeData, InitPhase.initialFillStep]
    ∧ (missMixedInit raw flags metric).2 = Except.error "Invalid metric" := by
  unfold missMixedInit
  rw [hclean]
  simp [hm]

/-- C2 witness: the amended theorem applied at a concrete table, flag list
and the invalid metric "bogus". -/
theorem invalid_metric_error_after_fill_w :
    (missMixedInit [[Cell.val 1, Cell.val 2, Cell.na], [Cell.val 0, Cell.val 0, Cell.val 1]]
        [false, true] "bogus").1 =
      [InitPhase.cleanData, InitPhase.encodeData, InitPhase.initialFillStep]
    ∧ (missMixedInit [[Cell.val 1, Cell.val 2, Cell.na], [Cell.val 0, Cell.val 0, Cell.val 1]]
        [false, true] "bogus").2 = Except.error "Invalid metric" :=
  invalid_metric_error_after_fill
    [[Cell.val 1, Cell.val 2, Cell.na], [Cell.val 0, Cell.val 0, Cell.val 1]]
    [false, true] [false, true] "bogus" (by decide) (by decide)

/-- Folding `min` over a list never exceeds the start value. -/
theorem foldl_min_le_init (l : List ℚ) : ∀ a : ℚ, l.foldl min a ≤ a := by
  induction l with
  | nil => intro a; exact le_refl a
  | cons x xs ih =>
    intro a
    exact le_trans (ih (min a x)) (min_le_left a x)

/-- Folding `min` over a list is a lower bound of its members. -/
theorem foldl_min_le_mem (l : List ℚ) : ∀ (a v : ℚ), v ∈ l → l.foldl min a ≤ v := by
  induction l with
  | nil => intro a v hv; cases hv
  | cons x xs ih =>
    intro a v hv
    cases hv with
    | head => exact le_trans (foldl_min_le_init xs (min a x)) (min_le_right a x)
    | tail _ h => exact ih (min a x) v h

/-- Folding `max` over a list is at least the start value. -/
theorem init_le_foldl_max (l : List ℚ) : ∀ a : ℚ, a ≤ l.foldl max a := by
  induction l with
  | nil => intro a; exact le_refl a
  | cons x xs ih =>
    intro a
    exact le_trans (le_max_left a x) (ih (max a x))

/-- Folding `max` over a list is an upper bound of its members. -/
theorem mem_le_foldl_max (l : List ℚ) : ∀ (a v : ℚ), v ∈ l → v ≤ l.foldl max a := by
  induction l with
  | nil => intro a v hv; cases hv
  | cons x xs ih =>
    intro a v hv
    cases hv with
    | head => exact le_trans (le_max_right a x) (init_le_foldl_max xs (max a x))
    | tail _ h => exact ih (max a x) v h

/-- The column minimum bounds every member from below. -/
theorem colMinQ_le (c : List ℚ) (v : ℚ) (hv : v ∈ c) : colMinQ c ≤ v :=
  foldl_min_le_mem c (c.headD 0) v hv

/-- The column maximum bounds every member from above. -/
theorem le_colMaxQ (c : List ℚ) (v : ℚ) (hv : v ∈ c) : v ≤ colMaxQ c :=
  mem_le_foldl_max c (c.headD 0) v hv

/-- C4 counterexample: with a numerical target column, a feature column
flagged CATEGORICAL (codes 0 and 2) is min-max scaled to `[0, 10]` by
`__normalize`, because the loop condition reads only the shared flag of the
target column: the result differs from the pass-through the claim
describes (`normalizeSpecWords` with feature flag `true`). -/
theorem normalize_ignores_feature_flags_cx :
    normalize false [[(0 : ℚ), 2]] = [[(0 : ℚ), 10]]
    ∧ normalizeSpecWords [true] [[(0 : ℚ), 2]] = [[(0 : ℚ), 2]]
    ∧ normalize false [[(0 : ℚ), 2]] ≠ normalizeSpecWords [true] [[(0 : ℚ), 2]] := by
  refine ⟨?_, by simp [normalizeSpecWords], ?_⟩ <;>
    norm_num [normalize, normalizeSpecWords, minMaxScale, colMinQ, colMaxQ]

/-- C4 (amended): `__normalize` scales by the TARGET column's type: when
the target is categorical every feature column passes through unscaled,
and when the target is numerical every feature column (categorical
included) is min-max scaled; a scaled value of a non-constant feature
column always lands in the range `[0, 10]`. -/
theorem normalize_by_target_flag (cols : List (List ℚ)) (c : List ℚ) (x : ℚ)
    (_hc : c ∈ cols) (hx : x ∈ minMaxScale c)
    (hlt : colMinQ c < colMaxQ c) :
    normalize true cols = cols
    ∧ normalize false cols = cols.map minMaxScale
    ∧ 0 ≤ x ∧ x ≤ 10 := by
  refine ⟨by simp [normalize], by simp [normalize], ?_, ?_⟩ <;>
  · simp only [minMaxScale, List.mem_map] at hx
    obtain ⟨v, hv, rfl⟩ := hx
    have hmn : colMinQ c ≤ v := colMinQ_le c v hv
    have hmx : v ≤ colMaxQ c := le_colMaxQ c v hv
    have hd : 0 < colMaxQ c - colMinQ c := by linarith
    have h1 : 0 ≤ (v - colMinQ c) / (colMaxQ c - colMinQ c) :=
      div_nonneg (by linarith) (le_of_lt hd)
    have h2 : (v - colMinQ c) / (colMaxQ c - colMinQ c) ≤ 1 :=
      (div_le_one hd).mpr (by linarith)
    nlinarith

/-- C4 witness: the amended theorem applied to the concrete feature column
`[0, 2]`. -/
theorem normalize_by_target_flag_w :
    normalize true [[(0 : ℚ), 2]] = [[(0 : ℚ), 2]]
    ∧ normalize false [[(0 : ℚ), 2]] = [[(0 : ℚ), 2]].map minMaxScale
    ∧ (0 : ℚ) ≤ 10 ∧ (10 : ℚ) ≤ 10 :=
  normalize_by_target_flag [[(0 : ℚ), 2]] [(0 : ℚ), 2] 10 (by simp)
    (by norm_num [minMaxScale, colMinQ, colMaxQ])
    (by norm_num [colMinQ, colMaxQ])

/-- A single-trial stage whose fitted model predicts the constant -1 for
every row, scored by an external metric returning 0, on a fresh one-column
board with the maximize direction, with one row to impute. -/
def negModelOutcome : ColumnOutcome :=
  processEachColumn (fun _ rows => rows.map (fun _ => -1)) 1
    (fun _ _ => FVal.val 0) 1
    ⟨[[0], [0]], [0, 0], [[0], [0]], [0, 0]⟩ [[5]]
    (initBoard 1 "r2_accuracy") 0

/-- C3 counterexample: the update is accepted (score 0 beats the initial
minus infinity) and the value written into the ImputedMatrix column is the
model's raw prediction -1, which is negative: `__apply_best_model` applies
no clamp, only the scoring predictions in the trial loop are clamped. -/
theorem accepted_update_writes_negative_cx :
    negModelOutcome.updated = true
    ∧ negModelOutcome.written = some [(-1 : ℚ)]
    ∧ (-1 : ℚ) < 0 :=
  ⟨rfl, rfl, by norm_num⟩

/-- C3 (amended): predictions are clamped at zero only for computing the
train/validation scores (every value entering the metric is non-negative);
the values an accepted update writes into the ImputedMatrix are the
selected model's raw predictions on the to-impute rows, with no clamp. -/
theorem clamp_only_for_scoring (fitted : Nat → List (List ℚ) → List ℚ)
    (trials : Nat) (metric : List ℚ → List ℚ → FVal) (d : ℤ) (ds : TrainData)
    (imputeX : List (List ℚ)) (board : List FVal) (colIndex : Nat)
    (h2 : 2 ≤ ds.yTest.length)
    (hacc : (processEachColumn fitted trials metric d ds imputeX board
      colIndex).updated = true)
    (ys : List ℚ) (y : ℚ) (hy : y ∈ clampPred ys) :
    (processEachColumn fitted trials metric d ds imputeX board colIndex).written =
      some (fitted (bestTrial fitted trials metric d ds) imputeX)
    ∧ 0 ≤ y := by
  constructor
  · simp only [processEachColumn, if_pos h2] at hacc ⊢
    by_cases hg : (canImpute board d colIndex
        ((trialScores fitted trials metric ds).getD
          (bestTrial fitted trials metric d ds) (FVal.nan, FVal.nan)).2).1
    · simp only [hg, if_true]
    · rw [if_neg hg] at hacc
      simp at hacc
  · simp only [clampPred, List.mem_map] at hy
    obtain ⟨v, _, rfl⟩ := hy
    exact le_max_right v 0

/-- C3 witness: the amended theorem applied to the constant -1 model. -/
theorem clamp_only_for_scoring_w :
    (processEachColumn (fun _ rows => rows.map (fun _ => -1)) 1
        (fun _ _ => FVal.val 0) 1
        ⟨[[0], [0]], [0, 0], [[0], [0]], [0, 0]⟩ [[5]]
        (initBoard 1 "r2_accuracy") 0).written =
      some ((fun _ rows => rows.map (fun _ => (-1 : ℚ)))
        (bestTrial (fun _ rows => rows.map (fun _ => -1)) 1
          (fun _ _ => FVal.val 0) 1
          ⟨[[0], [0]], [0, 0], [[0], [0]], [0, 0]⟩) [[5]])
    ∧ (0 : ℚ) ≤ 0 :=
  clamp_only_for_scoring (fun _ rows => rows.map (fun _ => -1)) 1
    (fun _ _ => FVal.val 0) 1
    ⟨[[0], [0]], [0, 0], [[0], [0]], [0, 0]⟩ [[5]]
    (initBoard 1 "r2_accuracy") 0 (by decide) rfl [0] 0
    (by simp [clampPred])

/-- Reading a list back off the range of its positions reproduces it. -/
theorem map_getD_range {α : Type} (l : List α) (d : α) :
    (List.range l.length).map (fun i => l.getD i d) = l := by
  induction l with
  | nil => rfl
  | cons a t ih =>
    rw [List.length_cons, List.range_succ_eq_map, List.map_cons, List.map_map]
    simp only [List.getD_cons_zero, Function.comp_def, List.getD_cons_succ]
    rw [ih]

/-- When cleaning drops nothing, every position survives. -/
theorem survivorLabels_of_no_drops (t : Table) (h : dropLabels t = []) :
    survivorLabels t = List.range t.length := by
  have hall := List.filter_eq_nil_iff.mp h
  unfold survivorLabels
  apply List.filter_eq_self.mpr
  intro i hi
  have := hall i hi
  simp only [decide_eq_true_eq] at this ⊢
  omega

/-- When cleaning drops nothing, the working table is the raw table. -/
theorem cleanTable_of_no_drops (t : Table) (h : dropLabels t = []) :
    cleanTable t = t := by
  unfold cleanTable
  rw [survivorLabels_of_no_drops t h, map_getD_range]

/-- A column with no missing entry has no rows to impute. -/
theorem imputeRowIdxs_nil (c : Col) (h : colHasNull c = false) :
    imputeRowIdxs c = [] := by
  unfold imputeRowIdxs
  apply List.filter_eq_nil_iff.mpr
  intro i hi
  simp only [List.mem_range] at hi
  have hmem : c.getD i Cell.na ∈ c := by
    rw [List.getD_eq_getElem c Cell.na hi]
    exact List.getElem_mem hi
  simp only [colHasNull, List.any_eq_false, decide_eq_true_eq] at h
  simpa using h _ hmem

/-- A raw table whose first column has a single non-missing value (so
cleaning drops it), whose second column is fully observed, and whose third
has missing values.  After cleaning, working column 0 is the fully observed
second raw column. -/
def rawMisaligned : Table :=
  [[Cell.na, Cell.na, Cell.val 5],
   [Cell.val 1, Cell.val 2, Cell.val 3],
   [Cell.na, Cell.val 1, Cell.val 2]]

/-- C6 counterexample: working column 0 of `rawMisaligned` has no missing
values, yet the skip guard of `__process_each_imputer` is false for it —
the guard reads `raw_data` at the working position, which after the drop is
the raw first column (full of NaN) — so the stage proceeds to train that
fully observed column, refuting "never trained ... including when other
columns were dropped during cleaning". -/
theorem no_missing_guard_misaligned_cx :
    colHasNull ((cleanTable rawMisaligned).getD 0 []) = false
    ∧ noMissingGuard rawMisaligned 0 = false :=
  ⟨rfl, rfl⟩

/-- C6 (amended): a working column with zero missing values always —
whether or not cleaning dropped columns — has an empty to-impute row set,
so no stage ever writes any value to it and its values stay exactly the
initial fill; it is additionally skipped (sentinel-seeded, never trained)
whenever cleaning dropped no column, but after a drop the positional guard
on the raw table can send it to training (counterexample). -/
theorem no_missing_never_rewritten (raw : Table) (colIdx : Nat) (wcol : Col)
    (hnull : colHasNull wcol = false)
    (hw : wcol = (cleanTable raw).getD colIdx [])
    (c vals : List ℚ) :
    imputeRowIdxs wcol = []
    ∧ writeAtRows c (imputeRowIdxs wcol) vals = c
    ∧ (dropLabels raw = [] → noMissingGuard raw colIdx = true) := by
  have hrows : imputeRowIdxs wcol = [] := imputeRowIdxs_nil wcol hnull
  refine ⟨hrows, ?_, ?_⟩
  · rw [hrows]
    rfl
  · intro hnodrop
    rw [cleanTable_of_no_drops raw hnodrop] at hw
    unfold noMissingGuard
    rw [← hw, hnull]
    rfl

/-- C6 witness: the amended theorem applied to a fully observed working
column of a table with no droppable column, the no-drop condition of the
guard conclusion discharged concretely. -/
theorem no_missing_never_rewritten_w :
    imputeRowIdxs [Cell.val 1, Cell.val 2, Cell.val 3] = []
    ∧ writeAtRows [(7 : ℚ), 8]
        (imputeRowIdxs [Cell.val 1, Cell.val 2, Cell.val 3]) [(9 : ℚ)] =
      [(7 : ℚ), 8]
    ∧ noMissingGuard [[Cell.val 1, Cell.val 2, Cell.val 3],
        [Cell.na, Cell.val 1, Cell.val 2]] 0 = true :=
  ⟨(no_missing_never_rewritten
      [[Cell.val 1, Cell.val 2, Cell.val 3], [Cell.na, Cell.val 1, Cell.val 2]]
      0 [Cell.val 1, Cell.val 2, Cell.val 3] rfl rfl [(7 : ℚ), 8] [(9 : ℚ)]).1,
   (no_missing_never_rewritten
      [[Cell.val 1, Cell.val 2, Cell.val 3], [Cell.na, Cell.val 1, Cell.val 2]]
      0 [Cell.val 1, Cell.val 2, Cell.val 3] rfl rfl [(7 : ℚ), 8] [(9 : ℚ)]).2.1,
   (no_missing_never_rewritten
      [[Cell.val 1, Cell.val 2, Cell.val 3], [Cell.na, Cell.val 1, Cell.val 2]]
      0 [Cell.val 1, Cell.val 2, Cell.val 3] rfl rfl [(7 : ℚ), 8] [(9 : ℚ)]).2.2
     rfl⟩

/-- C5: the sentinel score seeded for a fully observed column is the value
1 for BOTH metric directions.  The source computes
`1 if self.metric_direction else 0`, and the direction integer −1 of the
mse metric is truthy in Python, so the `else 0` branch is dead: contrary to
the claim, the minimize direction is seeded with 1, not 0. -/
theorem sentinel_always_one :
    sentinelScore "mse" = FVal.val 1
    ∧ metricDirection "mse" = -1
    ∧ sentinelScore "r2_accuracy" = FVal.val 1
    ∧ sentinelScore "mse" ≠ FVal.val 0 := by
  refine ⟨rfl, rfl, rfl, ?_⟩
  simp [sentinelScore, metricDirection]

/-- The direction-aware comparison is reflexive. -/
theorem dirBetterEq_refl (d : ℤ) (a : FVal) : dirBetterEq d a a = true := by
  simp [dirBetterEq]

/-- Strict float comparison is transitive (NaN never compares true). -/
theorem fval_lt_trans {a b c : FVal} (h1 : FVal.lt a b = true)
    (h2 : FVal.lt b c = true) : FVal.lt a c = true := by
  cases a <;> cases b <;> cases c <;> simp_all [FVal.lt]
  exact lt_trans h1 h2

/-- The direction-aware comparison is transitive. -/
theorem dirBetterEq_trans (d : ℤ) {a b c : FVal}
    (h1 : dirBetterEq d a b = true) (h2 : dirBetterEq d b c = true) :
    dirBetterEq d a c = true := by
  simp only [dirBetterEq, Bool.or_eq_true, decide_eq_true_eq] at h1 h2 ⊢
  rcases h1 with h1 | h1
  · rcases h2 with h2 | h2
    · left; rw [h1, h2]
    · right; rw [h1]; exact h2
  · rcases h2 with h2 | h2
    · right; rw [← h2]; exact h1
    · right; exact fval_lt_trans h2 h1

/-- One `__can_impute` call leaves every board entry at least as
direction-good as before. -/
theorem canImpute_entry_better (b : List FVal) (d : ℤ) (c : Nat) (t : FVal)
    (col : Nat) :
    dirBetterEq d (((canImpute b d c t).2).getD col FVal.nan)
      (b.getD col FVal.nan) = true := by
  simp only [canImpute]
  by_cases hg : FVal.lt (dirMul d (b.getD c FVal.nan)) (dirMul d t) = true
  · rw [if_pos hg]
    by_cases hcol : c = col
    · subst hcol
      by_cases hlen : c < b.length
      · rw [List.getD_eq_getElem?_getD, List.getElem?_set_self hlen,
          Option.getD_some]
        rw [List.getD_eq_getElem?_getD] at hg
        simp [dirBetterEq, hg]
      · rw [List.set_eq_of_length_le (Nat.le_of_not_lt hlen)]
        exact dirBetterEq_refl d _
    · rw [List.getD_eq_getElem?_getD, List.getElem?_set_ne hcol,
        ← List.getD_eq_getElem?_getD]
      exact dirBetterEq_refl d _
  · rw [if_neg hg]
    exact dirBetterEq_refl d _

/-- Over any sequence of `__can_impute` calls, every board entry is at
least as direction-good at the end as at the start. -/
theorem foldl_canImpute_better (d : ℤ) (col : Nat) :
    ∀ (events : List (Nat × FVal)) (b : List FVal),
      dirBetterEq d
        ((events.foldl (fun b e => (canImpute b d e.1 e.2).2) b).getD col FVal.nan)
        (b.getD col FVal.nan) = true := by
  intro events
  induction events with
  | nil => intro b; exact dirBetterEq_refl d _
  | cons e rest ih =>
    intro b
    exact dirBetterEq_trans d (ih _) (canImpute_entry_better b d e.1 e.2 col)

/-- C7: the score board is initialized to the direction-worst value (minus
infinity for the maximize metric, plus infinity for minimize); the gate
`__can_impute` accepts exactly when the candidate is strictly
direction-better than the stored value, and then stores the candidate; and
over any run the entry of a column after processing further events is
always at least as direction-good as after any prefix — it never
regresses. -/
theorem scoreboard_monotone (metric : String) (n col : Nat) (hcol : col < n)
    (b : List FVal) (c : Nat) (t : FVal) (hc : c < b.length)
    (hacc : (canImpute b (metricDirection metric) c t).1 = true)
    (updates pre post : List (Nat × FVal)) (hsplit : updates = pre ++ post) :
    (initBoard n metric).getD col FVal.nan =
      (if metric = "r2_accuracy" then FVal.negInf else FVal.posInf)
    ∧ (canImpute b (metricDirection metric) c t).1 =
        FVal.lt (dirMul (metricDirection metric) (b.getD c FVal.nan))
          (dirMul (metricDirection metric) t)
    ∧ ((canImpute b (metricDirection metric) c t).2).getD c FVal.nan = t
    ∧ dirBetterEq (metricDirection metric)
        ((runBoard metric n updates).getD col FVal.nan)
        ((runBoard metric n pre).getD col FVal.nan) = true := by
  refine ⟨?_, rfl, ?_, ?_⟩
  · unfold initBoard
    rw [List.getD_eq_getElem _ _ (by simpa using hcol), List.getElem_replicate]
    unfold metricDirection
    by_cases hm : metric = "r2_accuracy" <;> norm_num [hm, dirMul]
  · simp only [canImpute] at hacc ⊢
    rw [if_pos hacc, List.getD_eq_getElem?_getD, List.getElem?_set_self hc,
      Option.getD_some]
  · unfold runBoard
    rw [hsplit, List.foldl_append]
    exact foldl_canImpute_better (metricDirection metric) col post _

/-- C7 witness: the monotonicity theorem applied to a concrete maximize
run of two accepted updates on a one-column board. -/
theorem scoreboard_monotone_w :
    (initBoard 2 "r2_accuracy").getD 0 FVal.nan =
      (if "r2_accuracy" = "r2_accuracy" then FVal.negInf else FVal.posInf)
    ∧ (canImpute [FVal.negInf] (metricDirection "r2_accuracy") 0 (FVal.val 1)).1 =
        FVal.lt
          (dirMul (metricDirection "r2_accuracy") ([FVal.negInf].getD 0 FVal.nan))
          (dirMul (metricDirection "r2_accuracy") (FVal.val 1))
    ∧ ((canImpute [FVal.negInf] (metricDirection "r2_accuracy") 0
        (FVal.val 1)).2).getD 0 FVal.nan = FVal.val 1
    ∧ dirBetterEq (metricDirection "r2_accuracy")
        ((runBoard "r2_accuracy" 2
          [(0, FVal.val 1), (0, FVal.val 2)]).getD 0 FVal.nan)
        ((runBoard "r2_accuracy" 2 [(0, FVal.val 1)]).getD 0 FVal.nan) = true :=
  scoreboard_monotone "r2_accuracy" 2 0 (by norm_num) [FVal.negInf] 0
    (FVal.val 1) (by norm_num) rfl [(0, FVal.val 1), (0, FVal.val 2)]
    [(0, FVal.val 1)] [(0, FVal.val 2)] rfl

/-- Strict float comparison never holds against a NaN right operand. -/
theorem fval_lt_nan (a : FVal) : FVal.lt a FVal.nan = false := by
  cases a <;> rfl

/-- A true strict comparison's right operand is not NaN. -/
theorem fval_lt_right_ne_nan {a b : FVal} (h : FVal.lt a b = true) :
    b ≠ FVal.nan := by
  intro hb
  subst hb
  rw [fval_lt_nan] at h
  cases h

/-- The metric direction is 1 or -1, never 0 — exactly the two values the
constructor can assign. -/
theorem metricDirection_cases (metric : String) :
    metricDirection metric = 1 ∨ metricDirection metric = -1 := by
  unfold metricDirection
  by_cases h : metric = "r2_accuracy" <;> simp [h]

/-- A `__can_impute` call never puts NaN on a NaN-free board: an accepted
candidate passed a strict comparison, which NaN cannot. -/
theorem canImpute_nanFree {b : List FVal} (d : ℤ) (c : Nat) (t : FVal)
    (hb : ∀ x ∈ b, x ≠ FVal.nan) :
    ∀ x ∈ (canImpute b d c t).2, x ≠ FVal.nan := by
  intro x hx
  simp only [canImpute] at hx
  by_cases hg : FVal.lt (dirMul d (b.getD c FVal.nan)) (dirMul d t) = true
  · rw [if_pos hg] at hx
    rcases List.mem_or_eq_of_mem_set hx with h | h
    · exact hb x h
    · subst h
      intro hnan
      subst hnan
      exact fval_lt_right_ne_nan hg rfl
  · rw [if_neg hg] at hx
    exact hb x hx

/-- NaN-freeness of the board is preserved along any event sequence. -/
theorem foldl_canImpute_nanFree (d : ℤ) :
    ∀ (events : List (Nat × FVal)) (b : List FVal),
      (∀ x ∈ b, x ≠ FVal.nan) →
      ∀ x ∈ events.foldl (fun b e => (canImpute b d e.1 e.2).2) b,
        x ≠ FVal.nan := by
  intro events
  induction events with
  | nil => intro b hb; exact hb
  | cons e rest ih =>
    intro b hb
    exact ih _ (canImpute_nanFree d e.1 e.2 hb)

/-- The initial board holds infinities, never NaN. -/
theorem initBoard_nanFree (n : Nat) (metric : String) :
    ∀ x ∈ initBoard n metric, x ≠ FVal.nan := by
  intro x hx
  unfold initBoard at hx
  rw [List.eq_of_mem_replicate hx]
  rcases metricDirection_cases metric with h | h <;> rw [h] <;> decide

/-- C10: a NaN candidate validation score is rejected by the acceptance
gate — the strict float comparison against the stored best is false — the
board is left unchanged, and consequently every entry of the board after
any run of acceptance events is non-NaN. -/
theorem nan_candidate_rejected (b : List FVal) (d : ℤ) (c : Nat)
    (metric : String) (n : Nat) (events : List (Nat × FVal)) (x : FVal)
    (hx : x ∈ runBoard metric n events) :
    (canImpute b d c FVal.nan).1 = false
    ∧ (canImpute b d c FVal.nan).2 = b
    ∧ x ≠ FVal.nan := by
  refine ⟨fval_lt_nan _, ?_, ?_⟩
  · have hfalse : FVal.lt (dirMul d (b.getD c FVal.nan))
        (dirMul d FVal.nan) = false := fval_lt_nan _
    simp only [canImpute, hfalse]
    simp
  · unfold runBoard at hx
    exact foldl_canImpute_nanFree (metricDirection metric) events
      (initBoard n metric) (initBoard_nanFree n metric) x hx

/-- C10 witness: a NaN candidate against a concrete board, and the board
of a concrete minimize run holding the accepted score 2. -/
theorem nan_candidate_rejected_w :
    (canImpute [FVal.val 1] 1 0 FVal.nan).1 = false
    ∧ (canImpute [FVal.val 1] 1 0 FVal.nan).2 = [FVal.val 1]
    ∧ FVal.val 2 ≠ FVal.nan :=
  nan_candidate_rejected [FVal.val 1] 1 0 "mse" 1 [(0, FVal.val 2)]
    (FVal.val 2) (List.Mem.head _)

/-- C9: for every raw value observed among a column's non-missing entries
when the encoder is fitted, encoding it to its integer code and then
inverse-decoding that code (as done at final result assembly) returns the
original value exactly: the class list of the fitted encoder contains the
value, its code is its index, and decoding looks that index up. -/
theorem encode_decode_roundtrip (vs : List ℚ) (v : ℚ) (hv : v ∈ vs) :
    decodeVal (fitClasses vs) (encodeVal (fitClasses vs) v) = v := by
  have hvc : v ∈ fitClasses vs := by
    unfold fitClasses
    rw [List.mem_mergeSort]
    exact List.mem_dedup.mpr hv
  unfold decodeVal encodeVal
  have hlt : List.indexOf v (fitClasses vs) < (fitClasses vs).length :=
    List.indexOf_lt_length.mpr hvc
  rw [List.getD_eq_getElem _ _ hlt]
  have h := List.indexOf_get hlt
  rw [List.get_eq_getElem] at h
  exact h

/-- C9 witness: the round trip of the observed value 2 through the encoder
fitted on the column values 3, 1, 2. -/
theorem encode_decode_roundtrip_w :
    decodeVal (fitClasses [3, 1, 2]) (encodeVal (fitClasses [3, 1, 2]) 2) = 2 :=
  encode_decode_roundtrip [3, 1, 2] 2 (by norm_num)

/-- Reading a list off its positions with one position removed yields the
list with the entry at that position erased. -/
theorem map_getD_range_filter_ne {α : Type} (l : List α) (d : α) :
    ∀ i : Nat,
      ((List.range l.length).filter (fun j => j ≠ i)).map (fun j => l.getD j d) =
        l.eraseIdx i := by
  induction l with
  | nil => intro i; rfl
  | cons a t ih =>
    intro i
    rw [List.length_cons, List.range_succ_eq_map]
    cases i with
    | zero =>
      rw [List.filter_cons_of_neg (by simp), List.filter_map]
      have hall : (List.range t.length).filter
          ((fun j => decide (j ≠ 0)) ∘ Nat.succ) = List.range t.length := by
        apply List.filter_eq_self.mpr
        intro j hj
        simp
      rw [hall, List.map_map]
      simp only [Function.comp_def, List.getD_cons_succ]
      rw [List.eraseIdx_cons_zero]
      exact map_getD_range t d
    | succ k =>
      rw [List.filter_cons_of_pos (by simp), List.filter_map, List.map_cons,
        List.map_map]
      have hpred : (List.range t.length).filter
          ((fun j => decide (j ≠ k + 1)) ∘ Nat.succ) =
          (List.range t.length).filter (fun j => decide (j ≠ k)) := by
        apply List.filter_congr
        intro j hj
        simp [Function.comp]
      rw [hpred]
      simp only [List.getD_cons_zero, Function.comp_def, List.getD_cons_succ]
      rw [List.eraseIdx_cons_succ]
      congr 1
      exact ih k

/-- Dropped labels are positions of the table. -/
theorem dropLabel_lt (t : Table) (i : Nat) (h : i ∈ dropLabels t) :
    i < t.length := by
  unfold dropLabels at h
  exact List.mem_range.mp (List.mem_of_mem_filter h)

/-- When exactly the label `i` is dropped, the survivors are all other
positions in order. -/
theorem survivors_of_single_drop (t : Table) (i : Nat)
    (h : dropLabels t = [i]) :
    survivorLabels t = (List.range t.length).filter (fun j => j ≠ i) := by
  unfold survivorLabels
  apply List.filter_congr
  intro j hj
  have hmem : j ∈ dropLabels t ↔ nonNullCount (t.getD j []) ≤ 1 := by
    unfold dropLabels
    rw [List.mem_filter]
    simp [hj]
  rw [h, List.mem_singleton] at hmem
  by_cases hji : j = i
  · subst hji
    have hle := hmem.mp rfl
    rw [decide_eq_decide]
    constructor
    · intro hgt; omega
    · intro hne; exact absurd rfl hne
  · have hgt : 1 < nonNullCount (t.getD j []) := by
      rcases Nat.lt_or_ge 1 (nonNullCount (t.getD j [])) with h1 | h1
      · exact h1
      · exact absurd (hmem.mpr (by omega)) hji
    rw [decide_eq_decide]
    exact ⟨fun _ => hji, fun _ => hgt⟩

/-- A single in-range deletion from the flag list is an erase at that
position. -/
theorem deleteAtLabels_single (flags : List Bool) (i : Nat)
    (hi : i < flags.length) :
    deleteAtLabels flags [i] = some (flags.eraseIdx i) := by
  unfold deleteAtLabels listDelete
  rw [if_pos hi, List.eraseIdx_eq_take_drop_succ]
  rfl

/-- A raw table cleaning drops two leading columns from: columns 0 and 1
have at most one non-missing value, column 2 is fully observed. -/
def tableTwoDrops : Table :=
  [[Cell.na, Cell.val 7, Cell.na],
   [Cell.na, Cell.na, Cell.val 5],
   [Cell.val 1, Cell.val 2, Cell.val 3]]

/-- A raw table whose droppable columns are 0 and 2. -/
def tableEndDrop : Table :=
  [[Cell.na, Cell.na, Cell.val 5],
   [Cell.val 1, Cell.val 2, Cell.val 3],
   [Cell.na, Cell.val 7, Cell.na]]

/-- C8 counterexample: with two droppable columns, the sequential
`del categorical_columns[i]` loop leaves the flag list misaligned — on
`tableTwoDrops` with flags `[false, true, false]` it produces `[true]`
while the surviving column's flag is `false` — and on `tableEndDrop` the
second deletion is out of range (IndexError), so the claimed invariant
fails although both runs drop exactly the columns with non-missing count
at most 1. -/
theorem clean_flags_misaligned_cx :
    dropLabels tableTwoDrops = [0, 1]
    ∧ deleteAtLabels [false, true, false] (dropLabels tableTwoDrops) =
        some [true]
    ∧ alignedFlags tableTwoDrops [false, true, false] = [false]
    ∧ some [true] ≠ some [false]
    ∧ dropLabels tableEndDrop = [0, 2]
    ∧ deleteAtLabels [false, true, false] (dropLabels tableEndDrop) = none := by
  refine ⟨?_, ?_, ?_, by simp, ?_, ?_⟩ <;> decide

/-- C8 (amended): cleaning drops exactly the columns whose non-missing
count is at most 1, and the sequential flag deletion keeps the flag list
aligned with the surviving columns exactly when at most one column is
dropped; with two or more drops it misaligns or raises (counterexample). -/
theorem clean_single_drop_flags_aligned (t : Table) (flags : List Bool)
    (hlen : flags.length = t.length) (hdrop : (dropLabels t).length ≤ 1) :
    deleteAtLabels flags (dropLabels t) = some (alignedFlags t flags) := by
  rcases hd : dropLabels t with _ | ⟨i, _ | ⟨j, rest2⟩⟩
  · unfold alignedFlags
    rw [survivorLabels_of_no_drops t hd, ← hlen, map_getD_range]
    rfl
  · have hit : i < t.length :=
      dropLabel_lt t i (by rw [hd]; exact List.mem_singleton.mpr rfl)
    have hif : i < flags.length := by omega
    rw [deleteAtLabels_single flags i hif]
    congr 1
    unfold alignedFlags
    rw [survivors_of_single_drop t i hd, ← hlen]
    exact (map_getD_range_filter_ne flags false i).symm
  · rw [hd] at hdrop
    simp at hdrop

/-- C8 witness: the amended theorem applied to a table with exactly one
droppable column. -/
theorem clean_single_drop_flags_aligned_w :
    deleteAtLabels [true, false]
      (dropLabels [[Cell.na, Cell.na, Cell.val 5],
        [Cell.val 1, Cell.val 2, Cell.val 3]]) =
      some (alignedFlags [[Cell.na, Cell.na, Cell.val 5],
        [Cell.val 1, Cell.val 2, Cell.val 3]] [true, false]) :=
  clean_single_drop_flags_aligned
    [[Cell.na, Cell.na, Cell.val 5], [Cell.val 1, Cell.val 2, Cell.val 3]]
    [true, false] (by decide) (by decide)

end MM
